import Mathlib

/- Verification of the fuzzy application-search matcher embedded in the
ServiceNow APM catalog query script (scripts/apm_catalog.py).

Modelling conventions:
- Python strings are modelled as lists of characters (`List Char`); the
  ASCII fragment of Python's case folding, whitespace and \w classes is
  modelled, which covers every literal the script manipulates.
- Python floats are modelled as rationals (`ℚ`); every score the script
  computes is a ratio of small integers.
- The external ServiceNow REST call is modelled as an oracle
  `searchFn : query → SearchOutcome` supplied to the aggregation run. -/

set_option maxRecDepth 8000

/-- Python `str` whitespace (ASCII part), as consumed by `str.strip()` and
`str.split()`: space, tab, newline, carriage return, vertical tab, form feed. -/
def pyIsSpace (c : Char) : Bool :=
  c.toNat = 32 || c.toNat = 9 || c.toNat = 10 || c.toNat = 13 || c.toNat = 11 || c.toNat = 12

/-- Python `str.lower()` (ASCII part): `Char.toLower` maps exactly the ASCII
uppercase letters to lowercase, as Python does on ASCII input. -/
def pyLower (s : List Char) : List Char := s.map Char.toLower

/-- Python `str.strip()` with no argument (ASCII whitespace). -/
def pyStrip (s : List Char) : List Char :=
  ((s.dropWhile pyIsSpace).reverse.dropWhile pyIsSpace).reverse

/-- Maximal runs of characters satisfying `p`; the first argument accumulates
the current run in reverse. -/
def splitRunsAux (p : Char → Bool) : List Char → List Char → List (List Char)
  | [], acc => if acc.isEmpty then [] else [acc.reverse]
  | c :: cs, acc =>
    if p c then splitRunsAux p cs (c :: acc)
    else if acc.isEmpty then splitRunsAux p cs [] else acc.reverse :: splitRunsAux p cs []

/-- Python `str.split()` with no separator: maximal runs of non-whitespace;
a whitespace-only string splits to the empty list. -/
def pySplitWs (s : List Char) : List (List Char) :=
  splitRunsAux (fun c => !(pyIsSpace c)) s []

/-- A regex word character, `\w` (ASCII part): letters, digits, underscore. -/
def isWordChar (c : Char) : Bool := c.isAlphanum || c = '_'

/-- Python `re.findall` of the pattern `\w+`: maximal runs of word characters. -/
def wordsOf (s : List Char) : List (List Char) := splitRunsAux isWordChar s []

/-- Python `str.replace` with a single-character pattern: every occurrence of
`c` is replaced by the string `r` (empty `r` deletes the character). -/
def replace1 (c : Char) (r : List Char) (s : List Char) : List Char :=
  s.flatMap (fun x => if x = c then r else [x])

/-- Order-preserving de-duplication keeping the first occurrence, as done by
the `seen`-set loop in `normalize_search_term`. -/
def uniqAux : List (List Char) → List (List Char) → List (List Char)
  | [], _ => []
  | v :: vs, seen => if v ∈ seen then uniqAux vs seen else v :: uniqAux vs (v :: seen)

/-- `normalize_search_term` (scripts/apm_catalog.py, lines 28-54): lowercase,
strip, generate the eight separator variations, deduplicate keeping order. -/
def normalize_search_term (term : List Char) : List (List Char) :=
  let normalized := pyStrip (pyLower term)
  uniqAux
    [normalized,
     replace1 ' ' ['-'] normalized,
     replace1 ' ' ['_'] normalized,
     replace1 ' ' [] normalized,
     replace1 '-' [' '] normalized,
     replace1 '_' [' '] normalized,
     replace1 '-' [] normalized,
     replace1 '_' [] normalized] []

/-- Python `'^'.join`. -/
def caretJoin (l : List (List Char)) : List Char := List.intercalate ['^'] l

/-- The block of queries `generate_search_queries` appends for one normalized
variation (scripts/apm_catalog.py, lines 95-116): the four base filters, then,
only when the variation contains a space, hyphen or underscore AND splits into
more than one `\w+` word, the all-words conjunction followed by the per-word
name and description filters. -/
def queriesFor (variation : List Char) : List (List Char) :=
  ["name=".toList ++ variation,
   "sys_id=".toList ++ variation,
   "nameLIKE".toList ++ variation,
   "short_descriptionLIKE".toList ++ variation]
  ++ (if ' ' ∈ variation ∨ '-' ∈ variation ∨ '_' ∈ variation then
        (if 1 < (wordsOf variation).length then
           caretJoin ((wordsOf variation).map (fun w => "nameLIKE".toList ++ w)) ::
             (wordsOf variation).flatMap
               (fun w => ["nameLIKE".toList ++ w, "short_descriptionLIKE".toList ++ w])
         else [])
      else [])

/-- `generate_search_queries` (scripts/apm_catalog.py, lines 90-117). -/
def generate_search_queries (search_term : List Char) : List (List Char) :=
  (normalize_search_term search_term).flatMap queriesFor

/-- Length of the common prefix of two lists. -/
def commonPrefixLen : List Char → List Char → Nat
  | a :: as, b :: bs => if a = b then commonPrefixLen as bs + 1 else 0
  | _, _ => 0

/-- difflib `SequenceMatcher.find_longest_match` over the whole strings:
returns `(i, j, k)` with `a[i:i+k] = b[j:j+k]`, `k` maximal, ties resolved to
the earliest `i` and then the earliest `j`.  The script constructs
`SequenceMatcher(None, ...)`, so there is no junk predicate; autojunk only
affects second strings of 200 or more characters and is not modelled. -/
def longestMatch (a b : List Char) : Nat × Nat × Nat :=
  (List.range (a.length + 1)).foldl (fun best i =>
    (List.range (b.length + 1)).foldl (fun best j =>
      if best.2.2 < commonPrefixLen (a.drop i) (b.drop j)
      then (i, j, commonPrefixLen (a.drop i) (b.drop j)) else best) best) (0, 0, 0)

/-- Sum of the block sizes of difflib `get_matching_blocks`: recursively split
around the longest match.  Structural fuel is used; `matchingTotal` supplies
fuel exceeding the recursion depth, so the fuel never runs out. -/
def matchingTotalF : Nat → List Char → List Char → Nat
  | 0, _, _ => 0
  | f + 1, a, b =>
    let m := longestMatch a b
    if m.2.2 = 0 then 0
    else matchingTotalF f (a.take m.1) (b.take m.2.1) + m.2.2 +
         matchingTotalF f (a.drop (m.1 + m.2.2)) (b.drop (m.2.1 + m.2.2))

/-- Total number of matched characters between `a` and `b`.  Each recursive
call of `matchingTotalF` strictly shortens the first list (the longest match
has positive size there), so fuel `a.length + 1` is never exhausted. -/
def matchingTotal (a b : List Char) : Nat := matchingTotalF (a.length + 1) a b

/-- difflib `SequenceMatcher.ratio()`: `2*M / (len(a)+len(b))`, defined as
`1.0` when both strings are empty (difflib `_calculate_ratio`). -/
def ratioQ (a b : List Char) : ℚ :=
  if a.length + b.length = 0 then 1
  else 2 * (matchingTotal a b : ℚ) / ((a.length : ℚ) + (b.length : ℚ))

/-- `calculate_similarity` (scripts/apm_catalog.py, lines 56-58). -/
def calculate_similarity (term1 term2 : List Char) : ℚ :=
  ratioQ (pyLower term1) (pyLower term2)

/-- `score_application_match` (scripts/apm_catalog.py, lines 60-88): the five
scoring rules, first match wins.  `app_name.lower() if app_name else ""` is
modelled by the guarded lowering; substring tests are `List.IsInfix`. -/
def score_application_match (search_term app_name app_description : List Char) : ℚ :=
  let search_lower := pyLower search_term
  let name_lower := if app_name.isEmpty then [] else pyLower app_name
  let desc_lower := if app_description.isEmpty then [] else pyLower app_description
  if search_lower = name_lower then 1
  else if search_lower <:+: name_lower then 9/10
  else if (pySplitWs search_lower).all
            (fun word => (wordsOf name_lower).any (fun nw => decide (word <:+: nw))) then 8/10
  else if search_lower <:+: desc_lower then 6/10
  else
    max (calculate_similarity search_term app_name)
      ((if app_description.isEmpty then 0 else calculate_similarity search_term app_description)
        * (1/2))

/-- One candidate record returned by the backend for the `cmdb_ci_appl` query:
the fields requested via `sysparm_fields`; any of them may be absent from the
returned JSON object (`app.get(...)` then yields Python `None`). -/
structure AppRecord where
  sys_id : Option (List Char)
  name : Option (List Char)
  short_description : Option (List Char)
  operational_status : Option (List Char)
  assigned_to : Option (List Char)
  owned_by : Option (List Char)
  category : Option (List Char)
  subcategory : Option (List Char)
deriving DecidableEq

/-- The application dictionary built at scripts/apm_catalog.py lines 183-193,
score included (it is stripped only after sorting). -/
structure Application where
  sys_id : Option (List Char)
  name : Option (List Char)
  description : Option (List Char)
  operational_status : Option (List Char)
  assigned_to : Option (List Char)
  owned_by : Option (List Char)
  category : Option (List Char)
  subcategory : Option (List Char)
  relevance_score : ℚ
deriving DecidableEq

/-- Lines 177-193: score the record (missing name/description default to the
empty string via `app.get(field, '')`) and build the output dictionary. -/
def mkApplication (search_term : List Char) (app : AppRecord) : Application :=
  { sys_id := app.sys_id,
    name := app.name,
    description := app.short_description,
    operational_status := app.operational_status,
    assigned_to := app.assigned_to,
    owned_by := app.owned_by,
    category := app.category,
    subcategory := app.subcategory,
    relevance_score :=
      score_application_match search_term (app.name.getD []) (app.short_description.getD []) }

/-- Outcome of `make_request` for one query, as observed by the aggregation
loop (lines 119-144 and 162-199):
- `success records` — the call returned and `result` held `records`;
- `failure` — an exception reached the loop's `except Exception` clause
  (for example a malformed record raising inside the loop body), so the
  variant is skipped;
- `fatal` — `requests` raised a `RequestException`, which `make_request`
  itself catches, printing an error JSON and calling `sys.exit(1)`; the
  resulting `SystemExit` is not an `Exception`, so the loop cannot catch it
  and the whole program terminates. -/
inductive SearchOutcome where
  | success (records : List AppRecord)
  | failure
  | fatal
deriving DecidableEq

/-- The inner loop over one query's result list (lines 172-195): a record
whose `sys_id` (Python `None` when absent — `Option.none` here) is already a
key of `all_applications` is skipped, otherwise the scored application is
appended.  The insertion-ordered Python dict is modelled as the list `acc`. -/
def insertApps (search_term : List Char) : List AppRecord → List Application → List Application
  | [], acc => acc
  | app :: rest, acc =>
    if acc.any (fun x => decide (x.sys_id = app.sys_id))
    then insertApps search_term rest acc
    else insertApps search_term rest (acc ++ [mkApplication search_term app])

/-- The outer loop over `search_queries` (lines 162-199), started from an
arbitrary accumulator state: `failure` skips the variant via the
`except Exception: continue` clause, while `fatal` (`sys.exit(1)` inside
`make_request`) terminates the program, modelled as `Except.error`. -/
def aggregateFrom (search_term : List Char) (searchFn : List Char → SearchOutcome) :
    List (List Char) → List Application → Except Unit (List Application)
  | [], acc => Except.ok acc
  | q :: qs, acc =>
    match searchFn q with
    | SearchOutcome.success records =>
        aggregateFrom search_term searchFn qs (insertApps search_term records acc)
    | SearchOutcome.failure => aggregateFrom search_term searchFn qs acc
    | SearchOutcome.fatal => Except.error ()

/-- The full aggregation of scripts/apm_catalog.py lines 156-199: expand the
term, run every query, build `all_applications` from empty. -/
def findMatches (search_term : List Char) (searchFn : List Char → SearchOutcome) :
    Except Unit (List Application) :=
  aggregateFrom search_term searchFn (generate_search_queries search_term) []

/-- The comparator realised by Python
`sorted(..., key=lambda x: x['relevance_score'], reverse=True)`:
stable sort, higher scores first. -/
def scoreDesc (a b : Application) : Bool := decide (b.relevance_score ≤ a.relevance_score)

/-- `sorted_applications` (lines 207-212): Python's `sorted` is a stable
merge sort; `reverse=True` reverses each comparison but keeps stability. -/
def sorted_applications (apps : List Application) : List Application :=
  apps.mergeSort scoreDesc

/-- An output record after `app.pop('relevance_score', None)` (lines 214-216). -/
structure OutApplication where
  sys_id : Option (List Char)
  name : Option (List Char)
  description : Option (List Char)
  operational_status : Option (List Char)
  assigned_to : Option (List Char)
  owned_by : Option (List Char)
  category : Option (List Char)
  subcategory : Option (List Char)
deriving DecidableEq

/-- Removal of the `relevance_score` key from one application dictionary. -/
def stripScore (a : Application) : OutApplication :=
  { sys_id := a.sys_id,
    name := a.name,
    description := a.description,
    operational_status := a.operational_status,
    assigned_to := a.assigned_to,
    owned_by := a.owned_by,
    category := a.category,
    subcategory := a.subcategory }

/-- The distinct terminal outcomes of running scripts/apm_catalog.py. -/
inductive RunError where
  | usage
  | apiFailure
  | notFound
deriving DecidableEq

/-- The whole script run (lines 149-224).  `argparse` with exactly one
required positional argument accepts any single argument string — including
the empty string — and errors out (usage error) on zero or several arguments. -/
def mainRun (argv : List (List Char)) (searchFn : List Char → SearchOutcome) :
    Except RunError (List OutApplication) :=
  match argv with
  | [search_term] =>
    match aggregateFrom search_term searchFn (generate_search_queries search_term) [] with
    | Except.error _ => Except.error RunError.apiFailure
    | Except.ok [] => Except.error RunError.notFound
    | Except.ok apps => Except.ok ((sorted_applications apps).map stripScore)
  | _ => Except.error RunError.usage

/-- The guard of the embedded tool script
(src/servicenow_tools/tools/apm_catalog.py, lines 15-19):
`search_term = os.getenv('search_term', '')` followed by
`if not search_term: ... sys.exit(1)` — an unset or empty variable is
rejected before any query is issued. -/
def wrapperRejects (env_search_term : Option (List Char)) : Bool :=
  (env_search_term.getD []).isEmpty

/-- The `sys_id` keys of the model of the `all_applications` dict. -/
def idsOf (l : List Application) : List (Option (List Char)) :=
  l.map Application.sys_id

/-- The stream of records the aggregation loop actually processes, in order,
when no variant is fatal: the concatenation of the successful results
(a skipped variant contributes nothing). -/
def processedRecords (searchFn : List Char → SearchOutcome) (qs : List (List Char)) :
    List AppRecord :=
  (qs.map (fun q =>
    match searchFn q with
    | SearchOutcome.success records => records
    | _ => [])).flatten

/-- A record with every field absent, the base for the concrete fixtures. -/
def recBase : AppRecord :=
  { sys_id := none, name := none, short_description := none, operational_status := none,
    assigned_to := none, owned_by := none, category := none, subcategory := none }

/-- Fixture: record of id 1 whose name does not resemble the term `foo`. -/
def recZ : AppRecord := { recBase with sys_id := some ("1".toList), name := some ("zzz".toList) }

/-- Fixture: record of id 1 whose name is exactly `foo`. -/
def recF : AppRecord := { recBase with sys_id := some ("1".toList), name := some ("foo".toList) }

/-- Fixture: an id-less record named alpha. -/
def recN1 : AppRecord := { recBase with name := some ("alpha".toList) }

/-- Fixture: an id-less record named beta. -/
def recN2 : AppRecord := { recBase with name := some ("beta".toList) }

/-- Fixture backend for which the first variant of the term `foo` suffers a
transport failure (`RequestException`) while the second variant returns a
record. -/
def fnC1 : List Char → SearchOutcome := fun q =>
  if q = "name=foo".toList then SearchOutcome.fatal
  else if q = "sys_id=foo".toList then SearchOutcome.success [recF]
  else SearchOutcome.success []

/-- Fixture backend for which two different variants of the term `foo` return
records with the same id but different names. -/
def fnC2 : List Char → SearchOutcome := fun q =>
  if q = "name=foo".toList then SearchOutcome.success [recZ]
  else if q = "sys_id=foo".toList then SearchOutcome.success [recF]
  else SearchOutcome.success []

/-- Fixture backend for which one variant of the term `foo` returns two
distinct id-less records. -/
def fnC10 : List Char → SearchOutcome := fun q =>
  if q = "name=foo".toList then SearchOutcome.success [recN1, recN2]
  else SearchOutcome.success []

/-- Fixture: the application stored for `recF` when searching for `foo`. -/
def appW : Application := mkApplication ("foo".toList) recF

theorem foldl_inv {α β : Type} (P : β → Prop) (f : β → α → β)
    (l : List α) (b : β) (hb : P b) (hf : ∀ x a, P x → P (f x a)) : P (l.foldl f b) := by
  induction l generalizing b with
  | nil => exact hb
  | cons a l ih => exact ih (f b a) (hf b a hb)

theorem commonPrefixLen_le_left (a : List Char) : ∀ b, commonPrefixLen a b ≤ a.length := by
  induction a with
  | nil => intro b; cases b <;> simp [commonPrefixLen]
  | cons x xs ih =>
    intro b
    cases b with
    | nil => simp [commonPrefixLen]
    | cons y ys =>
      simp only [commonPrefixLen, List.length_cons]
      split
      · have := ih ys; omega
      · omega

theorem commonPrefixLen_le_right (a : List Char) : ∀ b, commonPrefixLen a b ≤ b.length := by
  induction a with
  | nil => intro b; cases b <;> simp [commonPrefixLen]
  | cons x xs ih =>
    intro b
    cases b with
    | nil => simp [commonPrefixLen]
    | cons y ys =>
      simp only [commonPrefixLen, List.length_cons]
      split
      · have := ih ys; omega
      · omega

theorem longestMatch_le (a b : List Char) :
    (longestMatch a b).2.2 ≤ (a.drop (longestMatch a b).1).length ∧
    (longestMatch a b).2.2 ≤ (b.drop (longestMatch a b).2.1).length := by
  unfold longestMatch
  apply foldl_inv
    (fun t : Nat × Nat × Nat =>
      t.2.2 ≤ (a.drop t.1).length ∧ t.2.2 ≤ (b.drop t.2.1).length)
  · constructor <;> simp
  · intro x i hx
    apply foldl_inv
      (fun t : Nat × Nat × Nat =>
        t.2.2 ≤ (a.drop t.1).length ∧ t.2.2 ≤ (b.drop t.2.1).length)
    · exact hx
    · intro y j hy
      dsimp only
      split
      · exact ⟨commonPrefixLen_le_left _ _, commonPrefixLen_le_right _ _⟩
      · exact hy

theorem matchingTotalF_le_left (f : Nat) : ∀ a b : List Char, matchingTotalF f a b ≤ a.length := by
  induction f with
  | zero => intro a b; simp [matchingTotalF]
  | succ f ih =>
    intro a b
    simp only [matchingTotalF]
    split
    · omega
    · have h1 := ih (a.take (longestMatch a b).1) (b.take (longestMatch a b).2.1)
      have h2 := ih (a.drop ((longestMatch a b).1 + (longestMatch a b).2.2))
        (b.drop ((longestMatch a b).2.1 + (longestMatch a b).2.2))
      have h3 := (longestMatch_le a b).1
      simp only [List.length_take, List.length_drop] at h1 h2 h3 ⊢
      omega

theorem matchingTotalF_le_right (f : Nat) : ∀ a b : List Char, matchingTotalF f a b ≤ b.length := by
  induction f with
  | zero => intro a b; simp [matchingTotalF]
  | succ f ih =>
    intro a b
    simp only [matchingTotalF]
    split
    · omega
    · have h1 := ih (a.take (longestMatch a b).1) (b.take (longestMatch a b).2.1)
      have h2 := ih (a.drop ((longestMatch a b).1 + (longestMatch a b).2.2))
        (b.drop ((longestMatch a b).2.1 + (longestMatch a b).2.2))
      have h3 := (longestMatch_le a b).2
      simp only [List.length_take, List.length_drop] at h1 h2 h3 ⊢
      omega

theorem ratioQ_nonneg (a b : List Char) : 0 ≤ ratioQ a b := by
  unfold ratioQ
  split
  · norm_num
  · apply div_nonneg
    · positivity
    · positivity

theorem ratioQ_le_one (a b : List Char) : ratioQ a b ≤ 1 := by
  unfold ratioQ
  split
  · exact le_refl 1
  case isFalse h =>
    have hpos : (0 : ℚ) < (a.length : ℚ) + (b.length : ℚ) := by
      have : 0 < a.length + b.length := Nat.pos_of_ne_zero h
      exact_mod_cast this
    rw [div_le_one hpos]
    have h1 : matchingTotal a b ≤ a.length := matchingTotalF_le_left _ a b
    have h2 : matchingTotal a b ≤ b.length := matchingTotalF_le_right _ a b
    have : 2 * matchingTotal a b ≤ a.length + b.length := by omega
    exact_mod_cast this

theorem ratioQ_nil_right (a : List Char) (h : a ≠ []) : ratioQ a [] = 0 := by
  unfold ratioQ
  have hlen : a.length ≠ 0 := fun hc => h (List.length_eq_zero.mp hc)
  rw [if_neg (by simpa using hlen)]
  have hm : matchingTotal a [] = 0 :=
    Nat.le_zero.mp (by simpa using matchingTotalF_le_right (a.length + 1) a [])
  rw [hm]
  norm_num

theorem calculate_similarity_nonneg (t1 t2 : List Char) : 0 ≤ calculate_similarity t1 t2 :=
  ratioQ_nonneg _ _

theorem calculate_similarity_le_one (t1 t2 : List Char) : calculate_similarity t1 t2 ≤ 1 :=
  ratioQ_le_one _ _

theorem score_cases (t n d : List Char) :
    score_application_match t n d = 1 ∨ score_application_match t n d = 9/10 ∨
    score_application_match t n d = 8/10 ∨ score_application_match t n d = 6/10 ∨
    score_application_match t n d =
      max (calculate_similarity t n)
        ((if d.isEmpty then 0 else calculate_similarity t d) * (1/2)) := by
  unfold score_application_match
  dsimp only
  repeat' split
  all_goals first
    | exact Or.inl rfl
    | exact Or.inr (Or.inl rfl)
    | exact Or.inr (Or.inr (Or.inl rfl))
    | exact Or.inr (Or.inr (Or.inr (Or.inl rfl)))
    | exact Or.inr (Or.inr (Or.inr (Or.inr rfl)))

theorem score_application_match_bounds (t n d : List Char) :
    0 ≤ score_application_match t n d ∧ score_application_match t n d ≤ 1 := by
  rcases score_cases t n d with h | h | h | h | h <;> rw [h]
  · norm_num
  · norm_num
  · norm_num
  · norm_num
  · have h1 := calculate_similarity_nonneg t n
    have h2 := calculate_similarity_le_one t n
    have h3 := calculate_similarity_nonneg t d
    have h4 := calculate_similarity_le_one t d
    constructor
    · exact le_max_of_le_left h1
    · apply max_le h2
      split
      · norm_num
      · nlinarith

theorem pyIsSpace_false_of_ge (n : Nat) (h1 : 65 ≤ n) (h2 : n ≤ 122) :
    (decide (n = 32) || decide (n = 9) || decide (n = 10) ||
     decide (n = 13) || decide (n = 11) || decide (n = 12)) = false := by
  simp only [Bool.or_eq_false_iff, decide_eq_false_iff_not]
  omega

theorem pyIsSpace_toLower (c : Char) : pyIsSpace (Char.toLower c) = pyIsSpace c := by
  unfold Char.toLower
  dsimp only
  split
  case isTrue h =>
    have h1 : (Char.ofNat (c.toNat + 32)).toNat = c.toNat + 32 := by
      have hv : Nat.isValidChar (c.toNat + 32) := Or.inl (by omega)
      rw [Char.ofNat, dif_pos hv]
      simp [Char.ofNatAux, Char.toNat, UInt32.toNat, Nat.toUInt32]
    unfold pyIsSpace
    rw [h1]
    rw [pyIsSpace_false_of_ge (c.toNat + 32) (by omega) (by omega)]
    rw [pyIsSpace_false_of_ge c.toNat (by omega) (by omega)]
  case isFalse h => rfl

theorem splitRunsAux_ne_nil (p : Char → Bool) (s : List Char) :
    ∀ acc, (acc ≠ [] ∨ ∃ c ∈ s, p c = true) → splitRunsAux p s acc ≠ [] := by
  induction s with
  | nil =>
    intro acc h
    rcases h with h | ⟨c, hc, _⟩
    · simp only [splitRunsAux]
      rw [if_neg (by simpa using h)]
      simp
    · cases hc
  | cons c cs ih =>
    intro acc h
    simp only [splitRunsAux]
    split
    case isTrue hp =>
      exact ih (c :: acc) (Or.inl (by simp))
    case isFalse hp =>
      split
      case isTrue hacc =>
        apply ih []
        right
        rcases h with h | ⟨c', hc', hp'⟩
        · exact absurd (List.isEmpty_iff.mp hacc) h
        · rcases List.mem_cons.mp hc' with rfl | hm
          · exact absurd hp' (by simpa using hp)
          · exact ⟨c', hm, hp'⟩
      case isFalse hacc =>
        simp

theorem pySplitWs_ne_nil (t : List Char) (hc : ∃ c ∈ t, pyIsSpace c = false) :
    pySplitWs (pyLower t) ≠ [] := by
  apply splitRunsAux_ne_nil
  right
  obtain ⟨c, hmem, hsp⟩ := hc
  refine ⟨Char.toLower c, List.mem_map_of_mem _ hmem, ?_⟩
  simp [pyIsSpace_toLower, hsp]

theorem mkApplication_sys_id (t : List Char) (a : AppRecord) :
    (mkApplication t a).sys_id = a.sys_id := rfl

theorem insertApps_append (t : List Char) (l1 l2 : List AppRecord) :
    ∀ acc, insertApps t (l1 ++ l2) acc = insertApps t l2 (insertApps t l1 acc) := by
  induction l1 with
  | nil => intro acc; rfl
  | cons a l ih =>
    intro acc
    simp only [List.cons_append, insertApps]
    split
    · exact ih acc
    · exact ih _

theorem insertApps_extends (t : List Char) (rs : List AppRecord) :
    ∀ acc, acc <+: insertApps t rs acc := by
  induction rs with
  | nil => intro acc; exact List.prefix_refl acc
  | cons a rest ih =>
    intro acc
    simp only [insertApps]
    split
    · exact ih acc
    · exact (List.prefix_append acc [mkApplication t a]).trans (ih _)

theorem mem_insertApps (t : List Char) (rs : List AppRecord) :
    ∀ acc x, x ∈ insertApps t rs acc →
      x ∈ acc ∨ (x.sys_id ∉ idsOf acc ∧
        ∃ r, rs.find? (fun r => decide (r.sys_id = x.sys_id)) = some r ∧
          x = mkApplication t r) := by
  induction rs with
  | nil =>
    intro acc x hx
    left
    simpa [insertApps] using hx
  | cons a rest ih =>
    intro acc x hx
    simp only [insertApps] at hx
    split at hx
    case isTrue hcond =>
      rcases ih acc x hx with h | ⟨hnotin, r, hfind, heq⟩
      · exact Or.inl h
      · refine Or.inr ⟨hnotin, r, ?_, heq⟩
        rw [List.find?_cons_of_neg]
        · exact hfind
        · simp only [decide_eq_true_eq]
          intro he
          apply hnotin
          simp only [List.any_eq_true, decide_eq_true_eq] at hcond
          obtain ⟨y, hy, hyid⟩ := hcond
          rw [← he, ← hyid]
          simp only [idsOf]
          exact List.mem_map_of_mem _ hy
    case isFalse hcond =>
      rcases ih _ x hx with h | ⟨hnotin, r, hfind, heq⟩
      · rcases List.mem_append.mp h with h' | h'
        · exact Or.inl h'
        · have hx' : x = mkApplication t a := by simpa using h'
          subst hx'
          refine Or.inr ⟨?_, a, ?_, rfl⟩
          · intro hc
            apply hcond
            simp only [mkApplication_sys_id, idsOf, List.mem_map] at hc
            obtain ⟨y, hy, hyid⟩ := hc
            simp only [List.any_eq_true, decide_eq_true_eq]
            exact ⟨y, hy, hyid⟩
          · exact List.find?_cons_of_pos _ (by simp [mkApplication_sys_id])
      · have hids : idsOf (acc ++ [mkApplication t a]) = idsOf acc ++ [a.sys_id] := by
          simp [idsOf, mkApplication_sys_id]
        have hnotacc : x.sys_id ∉ idsOf acc := fun hc =>
          hnotin (by rw [hids]; exact List.mem_append_left _ hc)
        have hne : a.sys_id ≠ x.sys_id := fun he =>
          hnotin (by rw [hids, ← he]; exact List.mem_append_right _ (by simp))
        refine Or.inr ⟨hnotacc, r, ?_, heq⟩
        rw [List.find?_cons_of_neg _ (by simpa using hne)]
        exact hfind

theorem insertApps_nodup (t : List Char) (rs : List AppRecord) :
    ∀ acc, (idsOf acc).Nodup → (idsOf (insertApps t rs acc)).Nodup := by
  induction rs with
  | nil => intro acc h; simpa [insertApps] using h
  | cons a rest ih =>
    intro acc h
    simp only [insertApps]
    split
    case isTrue hcond => exact ih acc h
    case isFalse hcond =>
      apply ih
      have hids : idsOf (acc ++ [mkApplication t a]) = idsOf acc ++ [a.sys_id] := by
        simp [idsOf, mkApplication_sys_id]
      rw [hids, List.nodup_append]
      refine ⟨h, List.nodup_singleton _, ?_⟩
      intro z hz hz2
      simp only [List.mem_singleton] at hz2
      subst hz2
      apply hcond
      simp only [idsOf, List.mem_map] at hz
      obtain ⟨y, hy, hyid⟩ := hz
      simp only [List.any_eq_true, decide_eq_true_eq]
      exact ⟨y, hy, hyid⟩

theorem aggregateFrom_no_fatal (t : List Char) (fn : List Char → SearchOutcome) :
    ∀ (qs : List (List Char)) (acc L : List Application),
      aggregateFrom t fn qs acc = Except.ok L → ∀ q ∈ qs, fn q ≠ SearchOutcome.fatal := by
  intro qs
  induction qs with
  | nil => intro acc L _ q hq; cases hq
  | cons q qs ih =>
    intro acc L h q' hq'
    rcases List.mem_cons.mp hq' with rfl | hm
    · intro hfat
      simp only [aggregateFrom, hfat] at h
      exact Except.noConfusion h
    · cases hfn : fn q with
      | success rs => simp only [aggregateFrom, hfn] at h; exact ih _ _ h q' hm
      | failure => simp only [aggregateFrom, hfn] at h; exact ih _ _ h q' hm
      | fatal => simp only [aggregateFrom, hfn] at h; exact Except.noConfusion h

theorem aggregateFrom_eq (t : List Char) (fn : List Char → SearchOutcome) :
    ∀ (qs : List (List Char)) (acc : List Application),
      (∀ q ∈ qs, fn q ≠ SearchOutcome.fatal) →
      aggregateFrom t fn qs acc = Except.ok (insertApps t (processedRecords fn qs) acc) := by
  intro qs
  induction qs with
  | nil => intro acc _; simp [aggregateFrom, processedRecords, insertApps]
  | cons q qs ih =>
    intro acc h
    cases hfn : fn q with
    | success rs =>
      simp only [aggregateFrom, hfn]
      rw [ih _ (fun q' hq' => h q' (List.mem_cons_of_mem _ hq'))]
      have hp : processedRecords fn (q :: qs) = rs ++ processedRecords fn qs := by
        simp [processedRecords, hfn]
      rw [hp, insertApps_append]
    | failure =>
      simp only [aggregateFrom, hfn]
      rw [ih _ (fun q' hq' => h q' (List.mem_cons_of_mem _ hq'))]
      have hp : processedRecords fn (q :: qs) = processedRecords fn qs := by
        simp [processedRecords, hfn]
      rw [hp]
    | fatal => exact absurd hfn (h q (List.mem_cons_self _ _))

theorem aggregateFrom_extends (t : List Char) (fn : List Char → SearchOutcome) :
    ∀ (qs : List (List Char)) (acc L : List Application),
      aggregateFrom t fn qs acc = Except.ok L → acc <+: L := by
  intro qs
  induction qs with
  | nil =>
    intro acc L h
    simp only [aggregateFrom, Except.ok.injEq] at h
    rw [← h]
  | cons q qs ih =>
    intro acc L h
    cases hfn : fn q with
    | success rs =>
      simp only [aggregateFrom, hfn] at h
      exact (insertApps_extends t rs acc).trans (ih _ _ h)
    | failure => simp only [aggregateFrom, hfn] at h; exact ih _ _ h
    | fatal => simp only [aggregateFrom, hfn] at h; exact Except.noConfusion h

theorem aggregateFrom_nodup (t : List Char) (fn : List Char → SearchOutcome) :
    ∀ (qs : List (List Char)) (acc L : List Application),
      aggregateFrom t fn qs acc = Except.ok L → (idsOf acc).Nodup → (idsOf L).Nodup := by
  intro qs
  induction qs with
  | nil =>
    intro acc L h hnd
    simp only [aggregateFrom, Except.ok.injEq] at h
    rw [← h]; exact hnd
  | cons q qs ih =>
    intro acc L h hnd
    cases hfn : fn q with
    | success rs =>
      simp only [aggregateFrom, hfn] at h
      exact ih _ _ h (insertApps_nodup t rs acc hnd)
    | failure => simp only [aggregateFrom, hfn] at h; exact ih _ _ h hnd
    | fatal => simp only [aggregateFrom, hfn] at h; exact Except.noConfusion h

theorem aggregateFrom_mem (t : List Char) (fn : List Char → SearchOutcome) :
    ∀ (qs : List (List Char)) (acc L : List Application),
      aggregateFrom t fn qs acc = Except.ok L →
      ∀ x ∈ L, x ∈ acc ∨ x.sys_id ∉ idsOf acc := by
  intro qs
  induction qs with
  | nil =>
    intro acc L h x hx
    simp only [aggregateFrom, Except.ok.injEq] at h
    rw [← h] at hx
    exact Or.inl hx
  | cons q qs ih =>
    intro acc L h x hx
    cases hfn : fn q with
    | success rs =>
      simp only [aggregateFrom, hfn] at h
      have hsub : idsOf acc ⊆ idsOf (insertApps t rs acc) := by
        simp only [idsOf]
        exact (List.Sublist.map _ (insertApps_extends t rs acc).sublist).subset
      rcases ih _ _ h x hx with h' | h'
      · rcases mem_insertApps t rs acc x h' with h'' | ⟨hno, _⟩
        · exact Or.inl h''
        · exact Or.inr hno
      · exact Or.inr (fun hc => h' (hsub hc))
    | failure => simp only [aggregateFrom, hfn] at h; exact ih _ _ h x hx
    | fatal => simp only [aggregateFrom, hfn] at h; exact Except.noConfusion h

theorem findMatches_first_seen (t : List Char) (fn : List Char → SearchOutcome)
    (L : List Application) (hL : findMatches t fn = Except.ok L) :
    ∀ x ∈ L, ∃ r,
      (processedRecords fn (generate_search_queries t)).find?
        (fun r => decide (r.sys_id = x.sys_id)) = some r ∧ x = mkApplication t r := by
  intro x hx
  have hnf := aggregateFrom_no_fatal t fn (generate_search_queries t) [] L hL
  unfold findMatches at hL
  rw [aggregateFrom_eq t fn (generate_search_queries t) [] hnf] at hL
  simp only [Except.ok.injEq] at hL
  rw [← hL] at hx
  rcases mem_insertApps t _ [] x hx with h | ⟨_, r, hfind, heq⟩
  · simp at h
  · exact ⟨r, hfind, heq⟩

theorem uniqAux_cons_of_not_mem (v : List Char) (vs seen : List (List Char)) (h : v ∉ seen) :
    uniqAux (v :: vs) seen = v :: uniqAux vs (v :: seen) := by
  simp [uniqAux, h]

theorem normalize_search_term_head (t : List Char) :
    ∃ rest, normalize_search_term t = pyStrip (pyLower t) :: rest := by
  unfold normalize_search_term
  dsimp only
  rw [uniqAux_cons_of_not_mem _ _ _ (List.not_mem_nil _)]
  exact ⟨_, rfl⟩

theorem scoreDesc_trans (a b c : Application) :
    scoreDesc a b = true → scoreDesc b c = true → scoreDesc a c = true := by
  simp only [scoreDesc, decide_eq_true_eq]
  exact fun h1 h2 => le_trans h2 h1

theorem scoreDesc_total (a b : Application) : (scoreDesc a b || scoreDesc b a) = true := by
  simp only [scoreDesc, Bool.or_eq_true, decide_eq_true_eq]
  exact le_total b.relevance_score a.relevance_score

theorem score_foo_zzz : score_application_match "foo".toList "zzz".toList [] = 0 := by
  have h1 : score_application_match "foo".toList "zzz".toList [] =
      max (calculate_similarity "foo".toList "zzz".toList) (0 * (1/2)) := rfl
  have h2 : calculate_similarity "foo".toList "zzz".toList =
      2 * (matchingTotal (pyLower "foo".toList) (pyLower "zzz".toList) : ℚ) /
        (((pyLower "foo".toList).length : ℚ) + ((pyLower "zzz".toList).length : ℚ)) := rfl
  have h3 : matchingTotal (pyLower "foo".toList) (pyLower "zzz".toList) = 0 := rfl
  have h4 : (pyLower "foo".toList).length = 3 := rfl
  have h5 : (pyLower "zzz".toList).length = 3 := rfl
  rw [h1, h2, h3, h4, h5]
  norm_num

theorem nodup_filter_none_length {L : List Application} (hnd : (idsOf L).Nodup) :
    (L.filter (fun x => decide (x.sys_id = none))).length ≤ 1 := by
  rcases hfl : L.filter (fun x => decide (x.sys_id = none)) with _ | ⟨a, _ | ⟨b, rest⟩⟩
  · simp [hfl]
  · simp [hfl]
  · exfalso
    have hsubl : (L.filter (fun x => decide (x.sys_id = none))).Sublist L :=
      List.filter_sublist _
    have hnd2 : ((L.filter (fun x => decide (x.sys_id = none))).map Application.sys_id).Nodup :=
      List.Nodup.sublist (List.Sublist.map _ hsubl) hnd
    rw [hfl] at hnd2
    have ha : a.sys_id = none := by
      have := List.mem_filter.mp (hfl ▸ List.mem_cons_self a (b :: rest))
      simpa using this.2
    have hb : b.sys_id = none := by
      have := List.mem_filter.mp (hfl ▸ List.mem_cons_of_mem a (List.mem_cons_self b rest))
      simpa using this.2
    simp only [List.map_cons, List.nodup_cons, List.mem_cons] at hnd2
    exact hnd2.1 (Or.inl (hb ▸ ha))
theorem score_empty_name_desc (t : List Char) (hne : t ≠ [])
    (hw : ∃ c ∈ t, pyIsSpace c = false) :
    score_application_match t [] [] = 0 := by
  have hlt : pyLower t ≠ [] := by
    intro hc
    exact hne (List.map_eq_nil_iff.mp hc)
  have hsplit := pySplitWs_ne_nil t hw
  have hcs : calculate_similarity t [] = 0 := by
    unfold calculate_similarity
    exact ratioQ_nil_right _ (by simpa [pyLower] using hlt)
  have hall : ¬ ((pySplitWs (pyLower t)).all
      (fun word => (wordsOf ([] : List Char)).any (fun nw => decide (word <:+: nw))) = true) := by
    intro hc
    obtain ⟨w, hwmem⟩ := List.exists_mem_of_ne_nil _ hsplit
    have := List.all_eq_true.mp hc w hwmem
    simp [wordsOf, splitRunsAux] at this
  unfold score_application_match
  simp only [List.isEmpty_nil, if_true]
  rw [if_neg hlt, if_neg (fun hc => hlt (List.infix_nil.mp hc)), if_neg hall,
    if_neg (fun hc => hlt (List.infix_nil.mp hc)), hcs]
  norm_num

/-- C1: the claim states that when the external search call for one variant
fails, the variant is skipped, later variants still run and their results are
included, and the failure is not surfaced.  The code's own comment (line 198,
"Continue with other search strategies if one fails") documents that intent,
but `make_request` catches `requests.exceptions.RequestException` itself and
calls `sys.exit(1)` (lines 141-144); the resulting `SystemExit` is not an
`Exception`, so the loop's handler never sees it.  Concretely: for the term
`foo`, the backend fails the first variant `name=foo` and would return `recF`
for the second variant `sys_id=foo`, yet the whole run aborts with the error
surfaced and the later variant's result is lost. -/
theorem C1_request_failure_aborts_aggregation :
    fnC1 ("sys_id=foo".toList) = SearchOutcome.success [recF] ∧
    findMatches "foo".toList fnC1 = Except.error () :=
  ⟨rfl, rfl⟩

/-- C2 counterexample: the claim states the stored score for an id returned
by several variants is the maximum score seen across those variants.  For the
term `foo`, variant `name=foo` returns `recZ` (id 1, name `zzz`, score 0) and
variant `sys_id=foo` returns `recF` (id 1, name `foo`, score 1); the stored
score is 0, the first-seen one, not the maximum 1. -/
theorem C2_counterexample_first_not_max :
    findMatches "foo".toList fnC2 = Except.ok [mkApplication "foo".toList recZ] ∧
    (mkApplication "foo".toList recZ).relevance_score = 0 ∧
    score_application_match "foo".toList (recF.name.getD []) (recF.short_description.getD []) = 1 ∧
    (0 : ℚ) ≠ 1 :=
  ⟨rfl, score_foo_zzz, rfl, by norm_num⟩

/-- C2 (amended): for every record in the aggregation output, the stored
application (score included) is the one built from the FIRST record bearing
its id in the stream of processed records — the first-seen score, not the
maximum over variants. -/
theorem C2_stored_score_is_first_seen (t : List Char) (fn : List Char → SearchOutcome)
    (L : List Application) (hL : findMatches t fn = Except.ok L)
    (x : Application) (hx : x ∈ L) :
    ∃ r, (processedRecords fn (generate_search_queries t)).find?
        (fun r => decide (r.sys_id = x.sys_id)) = some r ∧ x = mkApplication t r :=
  findMatches_first_seen t fn L hL x hx

/-- Witness for C2 (amended) at the concrete fixture of the counterexample. -/
theorem C2_stored_score_witness :
    ∃ r, (processedRecords fnC2 (generate_search_queries "foo".toList)).find?
        (fun r => decide (r.sys_id = (mkApplication "foo".toList recZ).sys_id)) = some r ∧
      mkApplication "foo".toList recZ = mkApplication "foo".toList r :=
  C2_stored_score_is_first_seen "foo".toList fnC2 [mkApplication "foo".toList recZ] rfl
    (mkApplication "foo".toList recZ) (List.mem_singleton_self _)

/-- C3: once a record's application (score included) has been inserted into
the result set, later variants never recompute or overwrite it: it is still
present, unchanged, at the end of the run, and it is the unique entry bearing
its id. -/
theorem C3_first_insertion_score_kept (t : List Char) (fn : List Char → SearchOutcome)
    (qs : List (List Char)) (acc L : List Application) (x : Application)
    (hnd : (idsOf acc).Nodup) (hx : x ∈ acc)
    (hL : aggregateFrom t fn qs acc = Except.ok L) :
    x ∈ L ∧ ∀ y ∈ L, y.sys_id = x.sys_id → y = x := by
  have hpre := aggregateFrom_extends t fn qs acc L hL
  have hxL : x ∈ L := hpre.sublist.subset hx
  refine ⟨hxL, ?_⟩
  intro y hy hid
  have hndL := aggregateFrom_nodup t fn qs acc L hL hnd
  simp only [idsOf] at hndL
  exact List.inj_on_of_nodup_map hndL hy hxL hid

/-- Witness for C3 at a concrete one-application state. -/
theorem C3_witness :
    appW ∈ [appW] ∧ ∀ y ∈ [appW], y.sys_id = appW.sys_id → y = appW :=
  C3_first_insertion_score_kept "foo".toList (fun _ => SearchOutcome.success [])
    [] [appW] [appW] appW (by simp [idsOf]) (List.mem_singleton_self _) rfl

/-- C4: the sorted aggregation output has pairwise distinct record ids, is
sorted by relevance score in descending order, and records of equal score
keep their insertion (first-discovery) order: any insertion-ordered pair of
equal score is still a sublist of the sorted output. -/
theorem C4_output_sorted_dedup (t : List Char) (fn : List Char → SearchOutcome)
    (L : List Application) (hL : findMatches t fn = Except.ok L) :
    (idsOf (sorted_applications L)).Nodup ∧
    List.Pairwise (fun a b => b.relevance_score ≤ a.relevance_score) (sorted_applications L) ∧
    ∀ x y : Application, [x, y].Sublist L → x.relevance_score = y.relevance_score →
      [x, y].Sublist (sorted_applications L) := by
  have hnd : (idsOf L).Nodup := aggregateFrom_nodup t fn _ [] L hL (by simp [idsOf])
  refine ⟨?_, ?_, ?_⟩
  · have hperm : (sorted_applications L).Perm L := List.mergeSort_perm L scoreDesc
    simp only [idsOf] at hnd ⊢
    exact ((hperm.map Application.sys_id).nodup_iff).mpr hnd
  · have hs : List.Pairwise (fun a b => scoreDesc a b = true) (L.mergeSort scoreDesc) :=
      List.sorted_mergeSort scoreDesc_trans scoreDesc_total L
    exact hs.imp (fun h => by simpa [scoreDesc] using h)
  · intro x y hsub heq
    apply List.sublist_mergeSort scoreDesc_trans scoreDesc_total _ hsub
    simp [List.pairwise_cons, scoreDesc, heq.ge]

/-- Witness for C4 at the concrete fixture backend. -/
theorem C4_witness :
    (idsOf (sorted_applications [mkApplication "foo".toList recZ])).Nodup ∧
    List.Pairwise (fun a b => b.relevance_score ≤ a.relevance_score)
      (sorted_applications [mkApplication "foo".toList recZ]) :=
  ⟨(C4_output_sorted_dedup "foo".toList fnC2 [mkApplication "foo".toList recZ] rfl).1,
   (C4_output_sorted_dedup "foo".toList fnC2 [mkApplication "foo".toList recZ] rfl).2.1⟩

/-- C5: the scoring function, with missing name/description defaulted to the
empty string, is deterministic (it is a pure function; the first conjunct is
its reflexivity) and always returns a value in the interval [0, 1]. -/
theorem C5_score_deterministic_bounded (search_term : List Char)
    (app_name app_description : Option (List Char)) :
    score_application_match search_term (app_name.getD []) (app_description.getD []) =
      score_application_match search_term (app_name.getD []) (app_description.getD []) ∧
    0 ≤ score_application_match search_term (app_name.getD []) (app_description.getD []) ∧
    score_application_match search_term (app_name.getD []) (app_description.getD []) ≤ 1 :=
  ⟨rfl, (score_application_match_bounds _ _ _).1, (score_application_match_bounds _ _ _).2⟩

/-- C6 counterexample: the claim states that for EVERY non-empty term the
score against empty name and description falls through to rule 5 and is 0.
A whitespace-only term refutes it: for the term consisting of one space,
`search_lower.split()` is empty, so rule 3's `all(...)` is vacuously true and
the score is 0.8, not 0. -/
theorem C6_counterexample_whitespace_term :
    score_application_match [' '] [] [] = 8/10 ∧ (8/10 : ℚ) ≠ 0 :=
  ⟨rfl, by norm_num⟩

/-- C6 (amended): for every non-empty term containing at least one
non-whitespace character, scoring with empty name and empty description falls
through rules 1-4 to the similarity rule and returns 0, with no error. -/
theorem C6_empty_name_desc_score_zero (t : List Char) (hne : t ≠ [])
    (hw : ∃ c ∈ t, pyIsSpace c = false) :
    score_application_match t [] [] = 0 :=
  score_empty_name_desc t hne hw

/-- Witness for C6 (amended) at the term `foo`. -/
theorem C6_witness : score_application_match "foo".toList [] [] = 0 :=
  C6_empty_name_desc_score_zero "foo".toList (by decide) ⟨'f', by decide, by decide⟩

/-- C7: for every non-empty term, query expansion is total (the function is
defined for all inputs), returns a non-empty sequence containing the
exact-name filter for the unmodified (identity) variant of the term, and is
deterministic. -/
theorem C7_expand_nonempty_exact_variant (t : List Char) (h : t ≠ []) :
    generate_search_queries t ≠ [] ∧
    ("name=".toList ++ pyStrip (pyLower t)) ∈ generate_search_queries t ∧
    ∀ t', t = t' → generate_search_queries t = generate_search_queries t' := by
  obtain ⟨rest, hrest⟩ := normalize_search_term_head t
  have hmem : ("name=".toList ++ pyStrip (pyLower t)) ∈ generate_search_queries t := by
    unfold generate_search_queries
    rw [hrest]
    simp only [List.flatMap_cons]
    apply List.mem_append_left
    simp [queriesFor]
  exact ⟨List.ne_nil_of_mem hmem, hmem, fun t' ht => ht ▸ rfl⟩

/-- Witness for C7 at the term `foo`. -/
theorem C7_witness :
    generate_search_queries "foo".toList ≠ [] ∧
    ("name=".toList ++ pyStrip (pyLower "foo".toList)) ∈ generate_search_queries "foo".toList ∧
    ∀ t', "foo".toList = t' →
      generate_search_queries "foo".toList = generate_search_queries t' :=
  C7_expand_nonempty_exact_variant "foo".toList (by decide)

/-- C8 counterexample: the claim states the word fan-out is synthesized for
every normalized variant with multiple words when split on non-word
characters.  The variant `foo.bar` has two such words, but contains neither a
space, hyphen nor underscore, so the code's guard skips the fan-out: the
conjunction filter is absent from the generated queries. -/
theorem C8_counterexample_dot_separator :
    "foo.bar".toList ∈ normalize_search_term "foo.bar".toList ∧
    1 < (wordsOf "foo.bar".toList).length ∧
    caretJoin ((wordsOf "foo.bar".toList).map (fun w => "nameLIKE".toList ++ w)) ∉
      generate_search_queries "foo.bar".toList :=
  ⟨by decide, by decide, by decide⟩

/-- C8 (amended): for every normalized variant that contains a space, hyphen
or underscore AND splits into multiple words, the expander synthesizes the
all-words conjunction filter on the name, one filter per word on the name,
and one per word on the description. -/
theorem C8_multiword_fanout (t v : List Char) (hv : v ∈ normalize_search_term t)
    (hsep : ' ' ∈ v ∨ '-' ∈ v ∨ '_' ∈ v) (hw : 1 < (wordsOf v).length) :
    caretJoin ((wordsOf v).map (fun w => "nameLIKE".toList ++ w)) ∈ generate_search_queries t ∧
    ∀ w ∈ wordsOf v, ("nameLIKE".toList ++ w) ∈ generate_search_queries t ∧
      ("short_descriptionLIKE".toList ++ w) ∈ generate_search_queries t := by
  have hsub : ∀ x, x ∈ queriesFor v → x ∈ generate_search_queries t := by
    intro x hx
    exact List.mem_flatMap.mpr ⟨v, hv, hx⟩
  constructor
  · apply hsub
    unfold queriesFor
    apply List.mem_append_right
    rw [if_pos hsep, if_pos hw]
    exact List.mem_cons_self _ _
  · intro w hwm
    constructor
    · apply hsub
      unfold queriesFor
      apply List.mem_append_right
      rw [if_pos hsep, if_pos hw]
      apply List.mem_cons_of_mem
      exact List.mem_flatMap.mpr ⟨w, hwm, by simp⟩
    · apply hsub
      unfold queriesFor
      apply List.mem_append_right
      rw [if_pos hsep, if_pos hw]
      apply List.mem_cons_of_mem
      exact List.mem_flatMap.mpr ⟨w, hwm, by simp⟩

/-- Witness for C8 (amended) at the variant `dev banking`. -/
theorem C8_witness :
    caretJoin ((wordsOf "dev banking".toList).map (fun w => "nameLIKE".toList ++ w)) ∈
      generate_search_queries "dev banking".toList ∧
    ∀ w ∈ wordsOf "dev banking".toList,
      ("nameLIKE".toList ++ w) ∈ generate_search_queries "dev banking".toList ∧
      ("short_descriptionLIKE".toList ++ w) ∈ generate_search_queries "dev banking".toList :=
  C8_multiword_fanout "dev banking".toList "dev banking".toList
    (by decide) (by decide) (by decide)

/-- C9 counterexample: the claim states an empty search term is rejected
before expansion begins and surfaced as a usage error.  But `argparse`
accepts an explicit empty-string argument: the run with argv `[""]` expands
the empty term (the expansion is non-empty) and proceeds to aggregation,
terminating with `Application not found` — not with a usage error. -/
theorem C9_counterexample_empty_term_runs :
    mainRun [[]] (fun _ => SearchOutcome.success []) = Except.error RunError.notFound ∧
    RunError.notFound ≠ RunError.usage ∧
    generate_search_queries [] ≠ [] :=
  ⟨rfl, by decide, by decide⟩

/-- C9 (amended): a MISSING search term (no CLI argument) is rejected by
argument parsing as a usage error before any expansion, and the embedded tool
wrapper rejects an unset or empty `search_term` environment variable before
issuing any query; an explicit empty-string CLI argument, however, is
accepted by the script and expansion runs on it. -/
theorem C9_missing_term_usage_error (fn : List Char → SearchOutcome) :
    mainRun [] fn = Except.error RunError.usage ∧
    wrapperRejects none = true ∧ wrapperRejects (some []) = true :=
  ⟨rfl, rfl, rfl⟩

/-- C10: all id-less candidate records share the result-set key `None`, so
the output contains at most one id-less application; it is built from the
first id-less record in the processed stream, and every later id-less record
is silently dropped. -/
theorem C10_single_idless_record (t : List Char) (fn : List Char → SearchOutcome)
    (L : List Application) (hL : findMatches t fn = Except.ok L) :
    (L.filter (fun x => decide (x.sys_id = none))).length ≤ 1 ∧
    ∀ x ∈ L, x.sys_id = none →
      ∃ r, (processedRecords fn (generate_search_queries t)).find?
          (fun r => decide (r.sys_id = none)) = some r ∧ x = mkApplication t r := by
  have hnd : (idsOf L).Nodup := aggregateFrom_nodup t fn _ [] L hL (by simp [idsOf])
  refine ⟨nodup_filter_none_length hnd, ?_⟩
  intro x hx hid
  obtain ⟨r, hfind, heq⟩ := findMatches_first_seen t fn L hL x hx
  rw [hid] at hfind
  exact ⟨r, hfind, heq⟩

/-- Witness for C10: the fixture backend returns two id-less records; the
output keeps exactly the first. -/
theorem C10_witness :
    ([mkApplication "foo".toList recN1].filter (fun x => decide (x.sys_id = none))).length ≤ 1 ∧
    ∀ x ∈ [mkApplication "foo".toList recN1], x.sys_id = none →
      ∃ r, (processedRecords fnC10 (generate_search_queries "foo".toList)).find?
          (fun r => decide (r.sys_id = none)) = some r ∧ x = mkApplication "foo".toList r :=
  C10_single_idless_record "foo".toList fnC10 [mkApplication "foo".toList recN1] rfl
